import Mathlib

/-!
Verification of the Item Normalization & Merge Engine of the pantry-tracking
backend (`app/core/models.py` and `app/core/merge.py`).

The embedding is shallow and kernel-computable:

* Python `float` quantities are modelled as exact rationals (`ℚ`).  Python's
  `round(x, 6)` is round-half-to-even at six decimal places, computed on the
  numerator/denominator with integer operations (`roundHalfEvenInt`).  The
  quantity sum inside the merge loop is written with `ratAdd`, an
  implementation of rational addition by `mkRat` that is proved equal to `+`
  (`ratAdd_eq_add`); this keeps every concrete merge computable by `decide`
  while all theorems are stated with ordinary `+`.
* Python strings are Lean `String`s.  `str.lower()` / `str.strip()` are
  `pyLower` / `pyStrip`, computed on the character list (exact for the ASCII
  data the application handles), and Python's lexicographic code-point
  comparison `<` is `strLtb`.
* The Python `dict` used as the merge index is an association list with
  first-match lookup, in-place update of an existing key and append of a new
  key (insertion-order semantics).
* Raising `ValueError` is modelled with `Except`; `list.sort` (a stable sort
  by a total key) is modelled with `List.insertionSort`.
* A second, imperative embedding with an explicit heap of item objects
  captures the aliasing/mutation behaviour of `merge_items` (which mutates
  only the copies it stores in its private index).
-/

namespace TodaysSpecial

/-- Python `str.lower()` (ASCII case mapping, as used by the application's
unit and name strings). -/
def pyLower (s : String) : String :=
  String.mk (s.data.map Char.toLower)

/-- Python `str.strip()`: drop leading and trailing whitespace. -/
def pyStrip (s : String) : String :=
  String.mk (((s.data.dropWhile Char.isWhitespace).reverse.dropWhile Char.isWhitespace).reverse)

/-- Python's lexicographic string comparison `<` on code points, on the
character lists. -/
def strLtChars : List Char → List Char → Bool
  | _, [] => false
  | [], _ :: _ => true
  | a :: as, b :: bs =>
    if a.toNat < b.toNat then true
    else if b.toNat < a.toNat then false
    else strLtChars as bs

/-- Python's `<` on strings. -/
def strLtb (a b : String) : Bool :=
  strLtChars a.data b.data

/-- Rational addition computed by `mkRat`; proved equal to `+` in
`ratAdd_eq_add`.  Used inside the merge loop so that concrete merges reduce
in the kernel. -/
def ratAdd (a b : ℚ) : ℚ :=
  mkRat (a.num * b.den + b.num * a.den) (a.den * b.den)

/-- Round `n / d` (`d ≠ 0`) to the nearest integer, ties to even: the
integer core of Python's `round`.  `n.fdiv d` is the floor and
`n - n.fdiv d * d` the (non-negative) remainder, so the three branches are
fractional part below, above, and exactly at one half. -/
def roundHalfEvenInt (n : ℤ) (d : ℕ) : ℤ :=
  if 2 * (n - n.fdiv d * d) < (d : ℤ) then n.fdiv d
  else if (d : ℤ) < 2 * (n - n.fdiv d * d) then n.fdiv d + 1
  else if 2 ∣ n.fdiv d then n.fdiv d else n.fdiv d + 1

/-- Python's `round(q, 6)`: round `q * 10^6 = (q.num * 10^6) / q.den` half to
even, divide back by `10^6`. -/
def round6 (q : ℚ) : ℚ :=
  mkRat (roundHalfEvenInt (q.num * 1000000) q.den) 1000000

/-- Pantry item record, mirroring `Item` in `app/core/models.py`.  The
memoisation fields `norm_name` / `norm_unit` are not modelled: they cache the
pure computations `normalized_name` / `normalized_unit` on first access and
are excluded from every copy, so they are observationally the pure functions
below. -/
structure Item where
  name : String
  quantity : ℚ
  unit : Option String
  category : Option String
  confidence : Option ℚ
  notes : Option String
deriving DecidableEq

/-- The `_normalize_unit_shape` validator of `Item.unit`: `None` stays `None`,
otherwise the string is stripped and an empty result becomes `None`. -/
def shapeUnit (v : Option String) : Option String :=
  match v with
  | none => none
  | some s =>
    let t := pyStrip s
    if t = "" then none else some t

/-- Validation of the optional `confidence` field (`ge=0, le=1`). -/
def confOK (c : Option ℚ) : Bool :=
  match c with
  | none => true
  | some x => decide (0 ≤ x ∧ x ≤ 1)

/-- Construction of an `Item` through the pydantic validators: `name` is
stripped and must be non-blank, `quantity` must be non-negative, `unit` goes
through `shapeUnit`, `confidence` must lie in `[0, 1]`.  A validation failure
(`ValueError`) is `none`. -/
def mkItem (name : String) (quantity : ℚ) (unit : Option String)
    (category : Option String) (confidence : Option ℚ)
    (notes : Option String) : Option Item :=
  if quantity < 0 then none
  else if confOK confidence = false then none
  else
    let n := pyStrip name
    if n = "" then none
    else some (Item.mk n quantity (shapeUnit unit) category confidence notes)

/-- The canonical unit table `CANON` of `Item.normalized_unit`. -/
def CANON : List (String × String) :=
  [("grams", "g"), ("gram", "g"), ("g", "g"),
   ("kilogram", "kg"), ("kilograms", "kg"), ("kg", "kg"),
   ("ml", "ml"), ("millilitre", "ml"), ("milliliter", "ml"), ("milliliters", "ml"),
   ("l", "l"), ("litre", "l"), ("liter", "l"), ("liters", "l"),
   ("cup", "cup"), ("cups", "cup"),
   ("pcs", "piece"), ("piece", "piece"), ("pieces", "piece"),
   ("unit", "piece"), ("units", "piece")]

/-- Lookup in the canonical table, falling back to the input when unmapped
(`CANON.get(u, u)`). -/
def canonLookup (u : String) : String :=
  match CANON.find? (fun p => decide (p.1 = u)) with
  | some p => p.2
  | none => u

/-- The method `Item.normalized_name`: `self.name.lower().strip()`. -/
def Item.normalized_name (it : Item) : String :=
  pyStrip (pyLower it.name)

/-- The method `Item.normalized_unit`: `None` stays `None`, otherwise
`CANON.get(self.unit.lower().strip(), same)`. -/
def Item.normalized_unit (it : Item) : Option String :=
  match it.unit with
  | none => none
  | some s => some (canonLookup (pyStrip (pyLower s)))

/-- Merge keys: `(normalized_name, normalized_unit)`. -/
abbrev Key := String × Option String

/-- The method `Item.key`. -/
def Item.key (it : Item) : Key :=
  (it.normalized_name, it.normalized_unit)

/-- Reconstruction `Item(**it.dict(exclude={"norm_name", "norm_unit"}))` used
to copy an item: the validators re-run on the already-validated field values
(the `ValueError` branches are unreachable for items built by `mkItem`, so
the copy is modelled by the validators' transformations alone). -/
def copyItem (it : Item) : Item :=
  Item.mk (pyStrip it.name) it.quantity (shapeUnit it.unit) it.category it.confidence it.notes

/-- Assignment `combined.quantity = q`: every field but `quantity` is kept. -/
def setQuantity (it : Item) (q : ℚ) : Item :=
  Item.mk it.name q it.unit it.category it.confidence it.notes

/-- An item is valid when its fields are fixed points of the construction
validators, i.e. it could have been produced by `mkItem`; the merge engine
only ever receives such items. -/
def Item.valid (it : Item) : Prop :=
  pyStrip it.name = it.name ∧ it.name ≠ "" ∧ 0 ≤ it.quantity ∧ shapeUnit it.unit = it.unit

instance (it : Item) : Decidable it.valid := by
  unfold Item.valid
  infer_instance

/-- The merge index: a Python `dict[Key, Item]` as an association list in
insertion order. -/
abbrev Index := List (Key × Item)

/-- Lookup `idx[key]` (with `key in idx` being `(indexFind idx k).isSome`). -/
def indexFind (idx : Index) (k : Key) : Option Item :=
  match idx with
  | [] => none
  | p :: rest => if p.1 = k then some p.2 else indexFind rest k

/-- Assignment `idx[key] = v`: an existing key is updated in place, a new key
is appended at the end (Python dict insertion-order semantics). -/
def indexInsert (idx : Index) (k : Key) (v : Item) : Index :=
  match idx with
  | [] => [(k, v)]
  | p :: rest => if p.1 = k then (k, v) :: rest else p :: indexInsert rest k v

/-- The helper `_index` of `app/core/merge.py`: index `items` by merge key,
storing a copy of each item; a duplicate key overwrites the earlier entry. -/
def _index (items : List Item) : Index :=
  items.foldl (fun idx it => indexInsert idx it.key (copyItem it)) []

/-- The body of the `for inc in incoming` loop of `merge_items`:
zero-quantity items are skipped, a present key gets its quantity replaced by
`round(existing + incoming, 6)`, an absent key gets a copy of the incoming
item. -/
def mergeStep (idx : Index) (inc : Item) : Index :=
  if inc.quantity = 0 then idx
  else
    match indexFind idx inc.key with
    | some combined =>
      indexInsert idx inc.key
        (setQuantity combined (round6 (ratAdd combined.quantity inc.quantity)))
    | none => indexInsert idx inc.key (copyItem inc)

/-- The Python sort-key tuple `(normalized_name(), normalized_unit() or "",
name)` of the `merged.sort` call. -/
def sortKey (it : Item) : String × String × String :=
  (it.normalized_name, it.normalized_unit.getD "", it.name)

/-- Python's lexicographic tuple comparison `≤` on string triples. -/
def tripleLe (x y : String × String × String) : Bool :=
  strLtb x.1 y.1
  || (decide (x.1 = y.1)
    && (strLtb x.2.1 y.2.1
      || (decide (x.2.1 = y.2.1)
        && (strLtb x.2.2 y.2.2 || decide (x.2.2 = y.2.2)))))

/-- Comparison of two items by their sort-key tuples. -/
def itemLe (a b : Item) : Bool :=
  tripleLe (sortKey a) (sortKey b)

/-- The sort order of the merged output, as a relation. -/
def itemLeR (a b : Item) : Prop :=
  itemLe a b = true

instance : DecidableRel itemLeR := fun a b =>
  inferInstanceAs (Decidable (itemLe a b = true))

/-- The only supported strategy, `MergeStrategy.ADD`. -/
def MergeStrategy.ADD : String := "add"

/-- The function `merge_items` of `app/core/merge.py`: reject any strategy
other than `"add"`, index `current`, fold the incoming items through the loop
body, and sort the index values by the tuple order. -/
def merge_items (current incoming : List Item) (strategy : String) :
    Except String (List Item) :=
  if strategy ≠ MergeStrategy.ADD then
    Except.error ("Unsupported merge strategy: " ++ strategy)
  else
    Except.ok
      (List.insertionSort itemLeR ((incoming.foldl mergeStep (_index current)).map Prod.snd))

/-- The `Pantry` model: a list of items. -/
structure Pantry where
  items : List Item
deriving DecidableEq

/-- The wrapper `apply_merge`: merge the pantry's items with the incoming
ones and wrap the result in a new `Pantry`. -/
def apply_merge (pantry : Pantry) (incoming : List Item) (strategy : String) :
    Except String Pantry :=
  match merge_items pantry.items incoming strategy with
  | Except.ok merged => Except.ok (Pantry.mk merged)
  | Except.error e => Except.error e

/-- Well-formedness of a merge index: merge keys are pairwise distinct and
every stored item's own merge key is the key it is stored under. -/
def idxOK (idx : Index) : Prop :=
  idx.Pairwise (fun p q => p.1 ≠ q.1) ∧ ∀ p ∈ idx, (p.2).key = p.1

/-- A quantity that is an integer multiple of `10^-6`, i.e. representable
exactly at six decimal places. -/
def micro (q : ℚ) : Prop :=
  ∃ k : ℤ, q * 1000000 = (k : ℚ)

/-- The multiset of quantities held by the items of `items` whose merge key
is `k` (a permutation-invariant observable of the merged output). -/
def qtysAt (items : List Item) (k : Key) : Multiset ℚ :=
  ((items.filter (fun it => decide (it.key = k))).map Item.quantity : List ℚ)

/-! ### Imperative embedding: a heap of item objects

The pure model above cannot express aliasing, so the mutation behaviour of
`merge_items` is embedded a second time, imperatively: Python objects live in
a heap addressed by allocation-ordered references, `Item(**...)` is an
allocation, and the assignment `combined.quantity = ...` is a heap write.
The callers' `current` and `incoming` lists are lists of references. -/

/-- A heap of `Item` objects. -/
structure Heap where
  mem : Nat → Option Item
  next : Nat

/-- Well-formed heap: nothing is stored at or above the allocation mark. -/
def Heap.WF (h : Heap) : Prop :=
  ∀ r, h.next ≤ r → h.mem r = none

/-- Allocation of a fresh object. -/
def Heap.alloc (h : Heap) (it : Item) : Heap × Nat :=
  (Heap.mk (fun x => if x = h.next then some it else h.mem x) (h.next + 1), h.next)

/-- Overwrite of the object at `r` (the `combined.quantity = ...` write). -/
def Heap.set (h : Heap) (r : Nat) (it : Item) : Heap :=
  Heap.mk (fun x => if x = r then some it else h.mem x) h.next

/-- The merge index of the imperative model maps keys to references. -/
abbrev IndexH := List (Key × Nat)

/-- Reference-valued analogue of `indexFind`. -/
def indexFindH (idx : IndexH) (k : Key) : Option Nat :=
  match idx with
  | [] => none
  | p :: rest => if p.1 = k then some p.2 else indexFindH rest k

/-- Reference-valued analogue of `indexInsert`. -/
def indexInsertH (idx : IndexH) (k : Key) (r : Nat) : IndexH :=
  match idx with
  | [] => [(k, r)]
  | p :: rest => if p.1 = k then (k, r) :: rest else p :: indexInsertH rest k r

/-- `_index` on the heap: every current item is copied into a freshly
allocated object and the index holds references to the copies only.  (A
dangling reference cannot occur in the Python program; the `none` branch is
a skip.) -/
def _indexH : Heap → List Nat → IndexH → Heap × IndexH
  | h, [], idx => (h, idx)
  | h, r :: rs, idx =>
    match h.mem r with
    | none => _indexH h rs idx
    | some it => _indexH (h.alloc (copyItem it)).1 rs (indexInsertH idx it.key (h.alloc (copyItem it)).2)

/-- The body of the incoming loop on the heap: the quantity update writes to
the reference held by the index (always a private copy), never to a caller
reference. -/
def mergeStepH (h : Heap) (idx : IndexH) (r : Nat) : Heap × IndexH :=
  match h.mem r with
  | none => (h, idx)
  | some inc =>
    if inc.quantity = 0 then (h, idx)
    else
      match indexFindH idx inc.key with
      | some cref =>
        match h.mem cref with
        | none => (h, idx)
        | some combined =>
          (h.set cref (setQuantity combined (round6 (ratAdd combined.quantity inc.quantity))),
           indexInsertH idx inc.key cref)
      | none =>
        ((h.alloc (copyItem inc)).1, indexInsertH idx inc.key (h.alloc (copyItem inc)).2)

/-- Comparison of references by their items' sort keys. -/
def refLe (h : Heap) (a b : Nat) : Bool :=
  match h.mem a, h.mem b with
  | some x, some y => itemLe x y
  | _, _ => true

/-- The sort order on references. -/
def refLeR (h : Heap) (a b : Nat) : Prop :=
  refLe h a b = true

instance (h : Heap) : DecidableRel (refLeR h) := fun a b =>
  inferInstanceAs (Decidable (refLe h a b = true))

/-- `merge_items` on the heap: index the current references, fold the
incoming references through the loop body, sort the index values. -/
def merge_itemsH (h : Heap) (current incoming : List Nat) : Heap × List Nat :=
  ((incoming.foldl (fun st r => mergeStepH st.1 st.2 r) (_indexH h current [])).1,
    List.insertionSort
      (refLeR (incoming.foldl (fun st r => mergeStepH st.1 st.2 r) (_indexH h current [])).1)
      ((incoming.foldl (fun st r => mergeStepH st.1 st.2 r) (_indexH h current [])).2.map Prod.snd))

/-- The (merge key, quantity) pairs of a collection, as a set. -/
def kqFinset (items : List Item) : Finset (Key × ℚ) :=
  (items.map (fun it => (it.key, it.quantity))).toFinset

deriving instance DecidableEq for Except

/-! ### Concrete items from the specification's examples -/

/-- Current item of the alias-folding example. -/
def tomatoCur : Item := Item.mk "Tomato" 2 (some "g") none none none

/-- Incoming item of the alias-folding example. -/
def tomatoInc : Item := Item.mk "tomato" 3 (some "grams") none none none

/-- Result of the alias-folding example. -/
def tomatoMerged : Item := Item.mk "Tomato" 5 (some "g") none none none

/-- The zero-quantity no-op example item. -/
def ghostItem : Item := Item.mk "Ghost" 0 (some "piece") none none none

/-- Items of the deterministic-ordering example. -/
def bananasItem : Item := Item.mk "Bananas" 1 (some "piece") none none none

/-- Items of the deterministic-ordering example. -/
def appleItem : Item := Item.mk "apple" 1 (some "piece") none none none

/-- Items of the deterministic-ordering example. -/
def carrotItem : Item := Item.mk "Carrot" 1 (some "g") none none none

/-- Duplicate-key current items (same merge key, different quantities). -/
def dupA1 : Item := Item.mk "a" 1 none none none none

/-- Duplicate-key current items (same merge key, different quantities). -/
def dupA2 : Item := Item.mk "a" 2 none none none none

/-- Sub-micro quantities showing that sequential rounding is order-dependent:
the current entry holds `4e-7`. -/
def tinyCur : Item := Item.mk "x" (mkRat 1 2500000) none none none none

/-- Incoming `4e-7` for the rounding counterexample. -/
def tinyA : Item := Item.mk "x" (mkRat 1 2500000) none none none none

/-- Incoming `1e-6` for the rounding counterexample. -/
def tinyB : Item := Item.mk "x" (mkRat 1 1000000) none none none none

/-- A one-object heap for the C9 witness. -/
def demoHeap : Heap :=
  Heap.mk (fun r => if r = 0 then some tomatoCur else none) 1

/-! ### Basic lemmas about the embedding -/

theorem ratAdd_eq_add (a b : ℚ) : ratAdd a b = a + b := by
  have ha : ((a.den : ℚ)) ≠ 0 := by
    exact_mod_cast a.den_nz
  have hb : ((b.den : ℚ)) ≠ 0 := by
    exact_mod_cast b.den_nz
  rw [ratAdd, Rat.mkRat_eq_div]
  conv_rhs => rw [← Rat.num_div_den a, ← Rat.num_div_den b]
  push_cast
  field_simp

theorem strLtChars_irrefl (a : List Char) : strLtChars a a = false := by
  induction a with
  | nil => rfl
  | cons a1 as ih => simp [strLtChars, ih]

theorem strLtChars_trans {a b c : List Char}
    (h1 : strLtChars a b = true) (h2 : strLtChars b c = true) :
    strLtChars a c = true := by
  induction a generalizing b c with
  | nil =>
    cases c with
    | nil =>
      cases b with
      | nil => exact h1
      | cons b1 bs => simp [strLtChars] at h2
    | cons c1 cs => simp [strLtChars]
  | cons a1 as ih =>
    cases b with
    | nil => simp [strLtChars] at h1
    | cons b1 bs =>
      cases c with
      | nil => simp [strLtChars] at h2
      | cons c1 cs =>
        simp only [strLtChars] at h1 h2 ⊢
        split_ifs at h1 h2 ⊢ <;>
          first
          | rfl
          | omega
          | exact ih h1 h2

theorem strLtChars_eq {a b : List Char}
    (h1 : strLtChars a b = false) (h2 : strLtChars b a = false) : a = b := by
  induction a generalizing b with
  | nil =>
    cases b with
    | nil => rfl
    | cons b1 bs => simp [strLtChars] at h1
  | cons a1 as ih =>
    cases b with
    | nil => simp [strLtChars] at h2
    | cons b1 bs =>
      simp only [strLtChars] at h1 h2
      rcases Nat.lt_trichotomy a1.toNat b1.toNat with g | g | g
      · rw [if_pos g] at h1
        exact absurd h1 (by simp)
      · have g1 : ¬ a1.toNat < b1.toNat := by omega
        have g2 : ¬ b1.toNat < a1.toNat := by omega
        rw [if_neg g1, if_neg g2] at h1
        rw [if_neg g2, if_neg g1] at h2
        have hc : a1 = b1 := Char.ext (UInt32.ext g)
        rw [hc, ih h1 h2]
      · rw [if_pos g] at h2
        exact absurd h2 (by simp)

theorem strLtb_trans {a b c : String}
    (h1 : strLtb a b = true) (h2 : strLtb b c = true) : strLtb a c = true :=
  strLtChars_trans h1 h2

theorem strLtb_eq {a b : String}
    (h1 : strLtb a b = false) (h2 : strLtb b a = false) : a = b := by
  cases a with
  | mk da =>
    cases b with
    | mk db =>
      have : da = db := strLtChars_eq h1 h2
      rw [this]

theorem tripleLe_trans {x y z : String × String × String}
    (h1 : tripleLe x y = true) (h2 : tripleLe y z = true) : tripleLe x z = true := by
  simp only [tripleLe, Bool.or_eq_true, Bool.and_eq_true, decide_eq_true_eq] at h1 h2 ⊢
  rcases h1 with h1 | ⟨e1, h1⟩
  · rcases h2 with h2 | ⟨e2, h2⟩
    · exact Or.inl (strLtb_trans h1 h2)
    · exact Or.inl (e2 ▸ h1)
  · rcases h2 with h2 | ⟨e2, h2⟩
    · exact Or.inl (e1 ▸ h2)
    · refine Or.inr ⟨e1.trans e2, ?_⟩
      rcases h1 with h1 | ⟨f1, h1⟩
      · rcases h2 with h2 | ⟨f2, h2⟩
        · exact Or.inl (strLtb_trans h1 h2)
        · exact Or.inl (f2 ▸ h1)
      · rcases h2 with h2 | ⟨f2, h2⟩
        · exact Or.inl (f1 ▸ h2)
        · refine Or.inr ⟨f1.trans f2, ?_⟩
          rcases h1 with h1 | h1
          · rcases h2 with h2 | h2
            · exact Or.inl (strLtb_trans h1 h2)
            · exact Or.inl (h2 ▸ h1)
          · rcases h2 with h2 | h2
            · exact Or.inl (h1 ▸ h2)
            · exact Or.inr (h1.trans h2)

theorem tripleLe_total (x y : String × String × String) :
    tripleLe x y = true ∨ tripleLe y x = true := by
  simp only [tripleLe, Bool.or_eq_true, Bool.and_eq_true, decide_eq_true_eq]
  cases hxy : strLtb x.1 y.1 with
  | true => exact Or.inl (Or.inl rfl)
  | false =>
    cases hyx : strLtb y.1 x.1 with
    | true => exact Or.inr (Or.inl rfl)
    | false =>
      have e1 : x.1 = y.1 := strLtb_eq hxy hyx
      cases hxy2 : strLtb x.2.1 y.2.1 with
      | true => exact Or.inl (Or.inr ⟨e1, Or.inl rfl⟩)
      | false =>
        cases hyx2 : strLtb y.2.1 x.2.1 with
        | true => exact Or.inr (Or.inr ⟨e1.symm, Or.inl rfl⟩)
        | false =>
          have e2 : x.2.1 = y.2.1 := strLtb_eq hxy2 hyx2
          cases hxy3 : strLtb x.2.2 y.2.2 with
          | true => exact Or.inl (Or.inr ⟨e1, Or.inr ⟨e2, Or.inl rfl⟩⟩)
          | false =>
            cases hyx3 : strLtb y.2.2 x.2.2 with
            | true => exact Or.inr (Or.inr ⟨e1.symm, Or.inr ⟨e2.symm, Or.inl rfl⟩⟩)
            | false =>
              have e3 : x.2.2 = y.2.2 := strLtb_eq hxy3 hyx3
              exact Or.inl (Or.inr ⟨e1, Or.inr ⟨e2, Or.inr e3⟩⟩)

instance : IsTrans Item itemLeR :=
  ⟨fun _ _ _ h1 h2 => tripleLe_trans h1 h2⟩

instance : IsTotal Item itemLeR :=
  ⟨fun a b => tripleLe_total (sortKey a) (sortKey b)⟩

/-! ### Lemmas about the merge index -/

theorem indexFind_indexInsert_self (idx : Index) (k : Key) (v : Item) :
    indexFind (indexInsert idx k v) k = some v := by
  induction idx with
  | nil => simp [indexInsert, indexFind]
  | cons p rest ih =>
    by_cases h : p.1 = k
    · simp [indexInsert, indexFind, h]
    · simp [indexInsert, indexFind, h, ih]

theorem indexFind_indexInsert_ne (idx : Index) (k k' : Key) (v : Item) (h : k' ≠ k) :
    indexFind (indexInsert idx k v) k' = indexFind idx k' := by
  induction idx with
  | nil => simp [indexInsert, indexFind, Ne.symm h]
  | cons p rest ih =>
    by_cases hp : p.1 = k
    · simp [indexInsert, indexFind, hp, Ne.symm h]
    · by_cases hp' : p.1 = k'
      · simp [indexInsert, indexFind, hp, hp', h]
      · simp [indexInsert, indexFind, hp, hp', ih]

theorem indexInsert_indexInsert (idx : Index) (k : Key) (v w : Item) :
    indexInsert (indexInsert idx k v) k w = indexInsert idx k w := by
  induction idx with
  | nil => simp [indexInsert]
  | cons p rest ih =>
    by_cases h : p.1 = k
    · simp [indexInsert, h]
    · simp [indexInsert, h, ih]

theorem indexFind_eq_none_iff (idx : Index) (k : Key) :
    indexFind idx k = none ↔ ∀ p ∈ idx, p.1 ≠ k := by
  induction idx with
  | nil => simp [indexFind]
  | cons p rest ih =>
    by_cases h : p.1 = k
    · simp [indexFind, h]
    · simp [indexFind, h, ih]

theorem indexFind_mem {idx : Index} {k : Key} {v : Item}
    (h : indexFind idx k = some v) : (k, v) ∈ idx := by
  induction idx with
  | nil => simp [indexFind] at h
  | cons p rest ih =>
    by_cases hp : p.1 = k
    · rw [indexFind, if_pos hp] at h
      injection h with h2
      rw [← hp, ← h2]
      simp
    · rw [indexFind, if_neg hp] at h
      exact List.mem_cons_of_mem _ (ih h)

theorem indexInsert_append (idx : Index) (k : Key) (v : Item)
    (h : ∀ p ∈ idx, p.1 ≠ k) :
    indexInsert idx k v = idx ++ [(k, v)] := by
  induction idx with
  | nil => simp [indexInsert]
  | cons p rest ih =>
    have hp : p.1 ≠ k := h p (by simp)
    rw [indexInsert, if_neg hp, ih (fun q hq => h q (List.mem_cons_of_mem _ hq))]
    simp

theorem mem_indexInsert {idx : Index} {k : Key} {v : Item} {q : Key × Item}
    (hq : q ∈ indexInsert idx k v) : q = (k, v) ∨ q ∈ idx := by
  induction idx with
  | nil => simpa [indexInsert] using hq
  | cons p rest ih =>
    by_cases h : p.1 = k
    · rw [indexInsert, if_pos h] at hq
      rcases List.mem_cons.mp hq with h1 | h1
      · exact Or.inl h1
      · exact Or.inr (List.mem_cons_of_mem _ h1)
    · rw [indexInsert, if_neg h] at hq
      rcases List.mem_cons.mp hq with h1 | h1
      · exact Or.inr (h1 ▸ List.mem_cons_self _ _)
      · rcases ih h1 with h2 | h2
        · exact Or.inl h2
        · exact Or.inr (List.mem_cons_of_mem _ h2)

/-! ### Validity and copies -/

theorem copyItem_eq_self {it : Item} (h : it.valid) : copyItem it = it := by
  rcases h with ⟨h1, _, _, h4⟩
  simp [copyItem, h1, h4]

theorem copyItem_quantity (it : Item) : (copyItem it).quantity = it.quantity :=
  rfl

theorem setQuantity_key (it : Item) (q : ℚ) : (setQuantity it q).key = it.key :=
  rfl

theorem setQuantity_quantity (it : Item) (q : ℚ) : (setQuantity it q).quantity = q :=
  rfl

theorem setQuantity_setQuantity (it : Item) (p q : ℚ) :
    setQuantity (setQuantity it p) q = setQuantity it q :=
  rfl


theorem idxOK_nil : idxOK [] :=
  ⟨List.Pairwise.nil, by simp⟩

theorem idxOK_indexInsert {idx : Index} {k : Key} {v : Item}
    (h : idxOK idx) (hv : v.key = k) : idxOK (indexInsert idx k v) := by
  rcases h with ⟨huniq, hkeys⟩
  constructor
  · induction idx with
    | nil => simp [indexInsert]
    | cons p rest ih =>
      rcases List.pairwise_cons.mp huniq with ⟨hp, hrest⟩
      by_cases hk : p.1 = k
      · rw [indexInsert, if_pos hk]
        exact List.pairwise_cons.mpr ⟨fun q hq => hk ▸ hp q hq, hrest⟩
      · rw [indexInsert, if_neg hk]
        refine List.pairwise_cons.mpr ⟨?_, ih hrest (fun q hq => hkeys q (List.mem_cons_of_mem _ hq))⟩
        intro q hq
        rcases mem_indexInsert hq with h1 | h1
        · rw [h1]
          exact hk
        · exact hp q h1
  · intro p hp
    rcases mem_indexInsert hp with h1 | h1
    · rw [h1]
      exact hv
    · exact hkeys p h1

theorem idxOK_mergeStep {idx : Index} {inc : Item}
    (h : idxOK idx) (hinc : inc.valid) : idxOK (mergeStep idx inc) := by
  unfold mergeStep
  by_cases hz : inc.quantity = 0
  · simpa [hz] using h
  · rw [if_neg hz]
    cases hfind : indexFind idx inc.key with
    | some ex =>
      apply idxOK_indexInsert h
      rw [setQuantity_key]
      exact h.2 _ (indexFind_mem hfind)
    | none =>
      apply idxOK_indexInsert h
      rw [copyItem_eq_self hinc]

theorem idxOK_foldl_mergeStep {incoming : List Item} {idx : Index}
    (h : idxOK idx) (hinc : ∀ it ∈ incoming, it.valid) :
    idxOK (incoming.foldl mergeStep idx) := by
  induction incoming generalizing idx with
  | nil => simpa using h
  | cons it rest ih =>
    rw [List.foldl_cons]
    exact ih (idxOK_mergeStep h (hinc it (List.mem_cons_self _ _)))
      (fun c hc => hinc c (List.mem_cons_of_mem _ hc))

theorem idxOK_foldl_index {items : List Item} {idx : Index}
    (h : idxOK idx) (hval : ∀ it ∈ items, it.valid) :
    idxOK (items.foldl (fun idx it => indexInsert idx it.key (copyItem it)) idx) := by
  induction items generalizing idx with
  | nil => simpa using h
  | cons it rest ih =>
    rw [List.foldl_cons]
    refine ih (idxOK_indexInsert h ?_) (fun c hc => hval c (List.mem_cons_of_mem _ hc))
    rw [copyItem_eq_self (hval it (List.mem_cons_self _ _))]

theorem idxOK_index {items : List Item} (hval : ∀ it ∈ items, it.valid) :
    idxOK (_index items) :=
  idxOK_foldl_index idxOK_nil hval

theorem mem_foldl_index {items : List Item} {p : Key × Item} :
    ∀ acc : Index,
      p ∈ items.foldl (fun idx it => indexInsert idx it.key (copyItem it)) acc →
      p ∈ acc ∨ ∃ c ∈ items, p = (c.key, copyItem c) := by
  induction items with
  | nil =>
    intro acc hacc
    exact Or.inl (by simpa using hacc)
  | cons it rest ih =>
    intro acc hacc
    rw [List.foldl_cons] at hacc
    rcases ih _ hacc with h1 | h1
    · rcases mem_indexInsert h1 with h2 | h2
      · exact Or.inr ⟨it, List.mem_cons_self _ _, h2⟩
      · exact Or.inl h2
    · rcases h1 with ⟨c, hc, hc2⟩
      exact Or.inr ⟨c, List.mem_cons_of_mem _ hc, hc2⟩

theorem mem_index {items : List Item} {p : Key × Item}
    (hp : p ∈ _index items) : ∃ c ∈ items, p = (c.key, copyItem c) := by
  unfold _index at hp
  rcases mem_foldl_index [] hp with h1 | h1
  · simp at h1
  · exact h1

/-! ### Rounding lemmas -/


theorem micro_add {a b : ℚ} (ha : micro a) (hb : micro b) : micro (a + b) := by
  rcases ha with ⟨k1, hk1⟩
  rcases hb with ⟨k2, hk2⟩
  refine ⟨k1 + k2, ?_⟩
  push_cast
  rw [add_mul, hk1, hk2]

theorem roundHalfEvenInt_mul (k : ℤ) (d : ℕ) (hd : d ≠ 0) :
    roundHalfEvenInt (k * d) d = k := by
  have hdz : ((d : ℤ)) ≠ 0 := by exact_mod_cast hd
  have hpos : (0 : ℤ) < (d : ℤ) := by
    have h0 : 0 < d := Nat.pos_of_ne_zero hd
    exact_mod_cast h0
  rw [roundHalfEvenInt, Int.mul_fdiv_cancel _ hdz]
  have hr : k * (d : ℤ) - k * (d : ℤ) = 0 := by ring
  rw [hr]
  simp [hpos]

theorem round6_micro {q : ℚ} (h : micro q) : round6 q = q := by
  rcases h with ⟨k, hk⟩
  have hden : ((q.den : ℚ)) ≠ 0 := by exact_mod_cast q.den_nz
  have h1 : (q.num : ℚ) * 1000000 = (k : ℚ) * (q.den : ℚ) := by
    have h2 : (q.num : ℚ) = q * q.den := (div_eq_iff hden).mp (Rat.num_div_den q)
    calc (q.num : ℚ) * 1000000 = q * q.den * 1000000 := by rw [← h2]
    _ = q * 1000000 * q.den := by ring
    _ = (k : ℚ) * q.den := by rw [hk]
  have h1' : q.num * 1000000 = k * (q.den : ℤ) := by exact_mod_cast h1
  rw [round6, h1', roundHalfEvenInt_mul k q.den q.den_nz, Rat.mkRat_eq_div]
  have h6 : ((1000000 : ℕ) : ℚ) ≠ 0 := by norm_num
  rw [div_eq_iff h6]
  push_cast
  rw [← hk]

theorem micro_round6 (q : ℚ) : micro (round6 q) := by
  refine ⟨roundHalfEvenInt (q.num * 1000000) q.den, ?_⟩
  rw [round6, Rat.mkRat_eq_div]
  have h6 : ((1000000 : ℕ) : ℚ) ≠ 0 := by norm_num
  rw [div_mul_eq_mul_div, mul_div_assoc]
  push_cast
  simp

/-! ### The merge loop, step by step -/

theorem mergeStep_zero {idx : Index} {inc : Item} (h : inc.quantity = 0) :
    mergeStep idx inc = idx := by
  rw [mergeStep, if_pos h]

theorem mergeStep_found {idx : Index} {inc ex : Item}
    (hq : inc.quantity ≠ 0) (hfind : indexFind idx inc.key = some ex) :
    mergeStep idx inc
      = indexInsert idx inc.key
          (setQuantity ex (round6 (ex.quantity + inc.quantity))) := by
  rw [mergeStep, if_neg hq, hfind]
  show indexInsert idx inc.key (setQuantity ex (round6 (ratAdd ex.quantity inc.quantity)))
      = indexInsert idx inc.key (setQuantity ex (round6 (ex.quantity + inc.quantity)))
  rw [ratAdd_eq_add]

theorem mergeStep_notFound {idx : Index} {inc : Item}
    (hq : inc.quantity ≠ 0) (hfind : indexFind idx inc.key = none) :
    mergeStep idx inc = indexInsert idx inc.key (copyItem inc) := by
  rw [mergeStep, if_neg hq, hfind]


theorem qtysAt_perm {items items' : List Item} (h : items.Perm items') (k : Key) :
    qtysAt items k = qtysAt items' k := by
  unfold qtysAt
  exact Quot.sound ((h.filter _).map _)


theorem Heap.alloc_next (h : Heap) (it : Item) : (h.alloc it).1.next = h.next + 1 :=
  rfl

theorem Heap.alloc_ref (h : Heap) (it : Item) : (h.alloc it).2 = h.next :=
  rfl

theorem Heap.alloc_mem_lt (h : Heap) (it : Item) {r : Nat} (hr : r < h.next) :
    (h.alloc it).1.mem r = h.mem r := by
  show (if r = h.next then some it else h.mem r) = h.mem r
  rw [if_neg (by omega)]

theorem Heap.set_mem_ne (h : Heap) (r : Nat) (it : Item) {x : Nat} (hx : x ≠ r) :
    (h.set r it).mem x = h.mem x := by
  show (if x = r then some it else h.mem x) = h.mem x
  rw [if_neg hx]

theorem Heap.WF.alloc {h : Heap} (hw : h.WF) (it : Item) : (h.alloc it).1.WF := by
  intro r hr
  rw [Heap.alloc_next] at hr
  show (if r = h.next then some it else h.mem r) = none
  rw [if_neg (by omega)]
  exact hw r (by omega)

theorem Heap.WF.set {h : Heap} (hw : h.WF) {r : Nat} (hr : r < h.next) (it : Item) :
    (h.set r it).WF := by
  intro x hx
  have hx' : h.next ≤ x := hx
  show (if x = r then some it else h.mem x) = none
  rw [if_neg (by omega)]
  exact hw x hx'

theorem mem_indexInsertH {idx : IndexH} {k : Key} {r : Nat} {q : Key × Nat}
    (hq : q ∈ indexInsertH idx k r) : q = (k, r) ∨ q ∈ idx := by
  induction idx with
  | nil => simpa [indexInsertH] using hq
  | cons p rest ih =>
    by_cases h : p.1 = k
    · rw [indexInsertH, if_pos h] at hq
      rcases List.mem_cons.mp hq with h1 | h1
      · exact Or.inl h1
      · exact Or.inr (List.mem_cons_of_mem _ h1)
    · rw [indexInsertH, if_neg h] at hq
      rcases List.mem_cons.mp hq with h1 | h1
      · exact Or.inr (h1 ▸ List.mem_cons_self _ _)
      · rcases ih h1 with h2 | h2
        · exact Or.inl h2
        · exact Or.inr (List.mem_cons_of_mem _ h2)

theorem indexFindH_mem {idx : IndexH} {k : Key} {r : Nat}
    (h : indexFindH idx k = some r) : (k, r) ∈ idx := by
  induction idx with
  | nil => simp [indexFindH] at h
  | cons p rest ih =>
    by_cases hp : p.1 = k
    · rw [indexFindH, if_pos hp] at h
      injection h with h2
      rw [← hp, ← h2]
      simp
    · rw [indexFindH, if_neg hp] at h
      exact List.mem_cons_of_mem _ (ih h)

theorem _indexH_spec (rs : List Nat) :
    ∀ (h : Heap) (idx : IndexH) (n : Nat),
      h.WF → n ≤ h.next → (∀ p ∈ idx, n ≤ p.2 ∧ p.2 < h.next) →
      (_indexH h rs idx).1.WF
      ∧ h.next ≤ (_indexH h rs idx).1.next
      ∧ (∀ x, x < n → (_indexH h rs idx).1.mem x = h.mem x)
      ∧ (∀ p ∈ (_indexH h rs idx).2, n ≤ p.2 ∧ p.2 < (_indexH h rs idx).1.next) := by
  induction rs with
  | nil =>
    intro h idx n hw _ hidx
    exact ⟨hw, le_refl _, fun x _ => rfl, hidx⟩
  | cons r rest ih =>
    intro h idx n hw hn hidx
    cases hm : h.mem r with
    | none =>
      simp only [_indexH, hm]
      exact ih h idx n hw hn hidx
    | some it =>
      simp only [_indexH, hm]
      have hidx' : ∀ p ∈ indexInsertH idx it.key (h.alloc (copyItem it)).2,
          n ≤ p.2 ∧ p.2 < (h.alloc (copyItem it)).1.next := by
        intro p hp
        rw [Heap.alloc_next]
        rcases mem_indexInsertH hp with h1 | h1
        · have h2 : p.2 = h.next := by rw [h1]; rfl
          exact ⟨by omega, by omega⟩
        · rcases hidx p h1 with ⟨h2, h3⟩
          exact ⟨h2, by omega⟩
      have hrec := ih (h.alloc (copyItem it)).1 (indexInsertH idx it.key (h.alloc (copyItem it)).2) n
        (hw.alloc _) (by rw [Heap.alloc_next]; omega) hidx'
      refine ⟨hrec.1, ?_, ?_, hrec.2.2.2⟩
      · have := hrec.2.1
        rw [Heap.alloc_next] at this
        omega
      · intro x hx
        rw [hrec.2.2.1 x hx, Heap.alloc_mem_lt h _ (by omega)]

theorem mergeStepH_spec (h : Heap) (idx : IndexH) (r : Nat) (n : Nat)
    (hw : h.WF) (hn : n ≤ h.next) (hidx : ∀ p ∈ idx, n ≤ p.2 ∧ p.2 < h.next) :
    (mergeStepH h idx r).1.WF
    ∧ h.next ≤ (mergeStepH h idx r).1.next
    ∧ (∀ x, x < n → (mergeStepH h idx r).1.mem x = h.mem x)
    ∧ (∀ p ∈ (mergeStepH h idx r).2, n ≤ p.2 ∧ p.2 < (mergeStepH h idx r).1.next) := by
  cases hm : h.mem r with
  | none =>
    simp only [mergeStepH, hm]
    exact ⟨hw, le_refl _, fun x _ => trivial, hidx⟩
  | some inc =>
    by_cases hz : inc.quantity = 0
    · simp only [mergeStepH, hm, if_pos hz]
      exact ⟨hw, le_refl _, fun x _ => trivial, hidx⟩
    · cases hf : indexFindH idx inc.key with
      | some cref =>
        have hcref : n ≤ cref ∧ cref < h.next := hidx _ (indexFindH_mem hf)
        cases hmc : h.mem cref with
        | none =>
          simp only [mergeStepH, hm, if_neg hz, hf, hmc]
          exact ⟨hw, le_refl _, fun x _ => trivial, hidx⟩
        | some combined =>
          simp only [mergeStepH, hm, if_neg hz, hf, hmc]
          refine ⟨hw.set hcref.2 _, le_refl _, ?_, ?_⟩
          · intro x hx
            exact Heap.set_mem_ne h cref _ (by omega)
          · intro p hp
            rcases mem_indexInsertH hp with h1 | h1
            · rw [h1]
              exact hcref
            · exact hidx p h1
      | none =>
        simp only [mergeStepH, hm, if_neg hz, hf]
        refine ⟨hw.alloc _, by rw [Heap.alloc_next]; omega, ?_, ?_⟩
        · intro x hx
          exact Heap.alloc_mem_lt h _ (by omega)
        · intro p hp
          rw [Heap.alloc_next]
          rcases mem_indexInsertH hp with h1 | h1
          · have h2 : p.2 = h.next := by rw [h1]; rfl
            exact ⟨by omega, by omega⟩
          · rcases hidx p h1 with ⟨h2, h3⟩
            exact ⟨h2, by omega⟩

theorem foldl_mergeStepH_spec (incoming : List Nat) :
    ∀ (h : Heap) (idx : IndexH) (n : Nat),
      h.WF → n ≤ h.next → (∀ p ∈ idx, n ≤ p.2 ∧ p.2 < h.next) →
      (incoming.foldl (fun st r => mergeStepH st.1 st.2 r) (h, idx)).1.WF
      ∧ h.next ≤ (incoming.foldl (fun st r => mergeStepH st.1 st.2 r) (h, idx)).1.next
      ∧ (∀ x, x < n →
          (incoming.foldl (fun st r => mergeStepH st.1 st.2 r) (h, idx)).1.mem x = h.mem x)
      ∧ (∀ p ∈ (incoming.foldl (fun st r => mergeStepH st.1 st.2 r) (h, idx)).2,
          n ≤ p.2 ∧ p.2 < (incoming.foldl (fun st r => mergeStepH st.1 st.2 r) (h, idx)).1.next) := by
  induction incoming with
  | nil =>
    intro h idx n hw _ hidx
    exact ⟨hw, le_refl _, fun x _ => rfl, hidx⟩
  | cons r rest ih =>
    intro h idx n hw hn hidx
    rw [List.foldl_cons]
    have hstep := mergeStepH_spec h idx r n hw hn hidx
    have hrec := ih (mergeStepH h idx r).1 (mergeStepH h idx r).2 n hstep.1
      (le_trans hn hstep.2.1) hstep.2.2.2
    refine ⟨hrec.1, le_trans hstep.2.1 hrec.2.1, ?_, hrec.2.2.2⟩
    intro x hx
    rw [hrec.2.2.1 x hx, hstep.2.2.1 x hx]

/-- The frame property of the heap-level merge: every object reachable
before the call reads unchanged after it, and every reference in the result
is fresh. -/
theorem merge_itemsH_frame (h : Heap) (current incoming : List Nat) (hw : h.WF) :
    (∀ x, x < h.next → (merge_itemsH h current incoming).1.mem x = h.mem x)
    ∧ (∀ r ∈ (merge_itemsH h current incoming).2, h.next ≤ r) := by
  have hidx := _indexH_spec current h [] h.next hw (le_refl _) (by simp)
  have hfold := foldl_mergeStepH_spec incoming (_indexH h current []).1 (_indexH h current []).2
    h.next hidx.1 hidx.2.1 hidx.2.2.2
  constructor
  · intro x hx
    show (incoming.foldl (fun st r => mergeStepH st.1 st.2 r) (_indexH h current [])).1.mem x
        = h.mem x
    rw [hfold.2.2.1 x hx, hidx.2.2.1 x hx]
  · intro r hr
    have hr2 : r ∈ ((incoming.foldl (fun st r => mergeStepH st.1 st.2 r)
        (_indexH h current [])).2.map Prod.snd) := by
      have := List.mem_insertionSort
        (refLeR (incoming.foldl (fun st r => mergeStepH st.1 st.2 r) (_indexH h current [])).1)
        (l := ((incoming.foldl (fun st r => mergeStepH st.1 st.2 r)
          (_indexH h current [])).2.map Prod.snd)) (x := r)
      exact this.mp hr
    rcases List.mem_map.mp hr2 with ⟨p, hp, hpr⟩
    rcases hfold.2.2.2 p hp with ⟨h1, _⟩
    omega

/-! ### Unfolding the merge at strategy "add" -/

theorem merge_items_add (current incoming : List Item) :
    merge_items current incoming "add"
      = Except.ok (List.insertionSort itemLeR
          ((incoming.foldl mergeStep (_index current)).map Prod.snd)) := by
  rw [merge_items, if_neg (by simp [MergeStrategy.ADD])]

theorem foldl_index_append {current : List Item} :
    ∀ acc : Index,
      (∀ it ∈ current, it.valid) →
      current.Pairwise (fun a b => a.key ≠ b.key) →
      (∀ p ∈ acc, ∀ it ∈ current, p.1 ≠ it.key) →
      current.foldl (fun idx it => indexInsert idx it.key (copyItem it)) acc
        = acc ++ current.map (fun it => (it.key, it)) := by
  induction current with
  | nil =>
    intro acc _ _ _
    simp
  | cons it rest ih =>
    intro acc hval huniq hacc
    have hstep := ih (acc ++ [(it.key, it)])
      (fun c hc => hval c (List.mem_cons_of_mem _ hc))
      ((List.pairwise_cons.mp huniq).2)
      (by
        intro p hp c hc
        rcases List.mem_append.mp hp with h1 | h1
        · exact hacc p h1 c (List.mem_cons_of_mem _ hc)
        · have hpe : p = (it.key, it) := by simpa using h1
          rw [hpe]
          exact (List.pairwise_cons.mp huniq).1 c hc)
    rw [List.foldl_cons, copyItem_eq_self (hval it (List.mem_cons_self _ _)),
      indexInsert_append acc it.key it (fun p hp => hacc p hp it (List.mem_cons_self _ _)),
      hstep]
    simp

/-- On a current collection with pairwise-distinct merge keys (the pantry
invariant) and validated items, `_index` is exactly the keyed listing of the
collection. -/
theorem _index_eq_map {current : List Item}
    (hval : ∀ it ∈ current, it.valid)
    (huniq : current.Pairwise (fun a b => a.key ≠ b.key)) :
    _index current = current.map (fun it => (it.key, it)) := by
  unfold _index
  simpa using foldl_index_append [] hval huniq (by simp)


theorem kqFinset_perm {items items' : List Item} (h : items.Perm items') :
    kqFinset items = kqFinset items' :=
  List.toFinset_eq_of_perm _ _ (h.map _)

/-- Inserting an item under its own, previously absent key makes it the only
entry of the index holding that key. -/
theorem qtysAt_indexInsert_of_none {idx : Index} {k : Key} {v : Item}
    (hOK : idxOK idx) (hfind : indexFind idx k = none) (hv : v.key = k) :
    qtysAt ((indexInsert idx k v).map Prod.snd) k = {v.quantity} := by
  rw [indexInsert_append idx k v ((indexFind_eq_none_iff idx k).mp hfind)]
  unfold qtysAt
  rw [List.map_append, List.filter_append, List.map_append]
  have hdrop : ((idx.map Prod.snd).filter (fun it => decide (it.key = k))) = [] := by
    rw [List.filter_eq_nil_iff]
    intro it hit
    rcases List.mem_map.mp hit with ⟨p, hp, hpit⟩
    have hk1 := hOK.2 p hp
    have hk2 := (indexFind_eq_none_iff idx k).mp hfind p hp
    rw [← hpit]
    simp [hk1, hk2]
  rw [hdrop]
  simp [hv]

/-- The quantity stored for a key of `_index current` is the quantity of an
item of `current`. -/
theorem indexFind_index_quantity {current : List Item} {k : Key} {ex : Item}
    (hfind : indexFind (_index current) k = some ex) :
    ∃ c ∈ current, ex.quantity = c.quantity := by
  rcases mem_index (indexFind_mem hfind) with ⟨c, hc, he⟩
  refine ⟨c, hc, ?_⟩
  have : ex = copyItem c := congrArg Prod.snd he
  rw [this, copyItem_quantity]


/-! ### The claims -/

/-- C1: for strategy "add", an incoming item whose merge key is already in
the index replaces only that entry's quantity, with
`round(existing + incoming, 6)`, keeping every other field of the entry and
every other entry unchanged; merging {Tomato, 2, g} with {tomato, 3, grams}
yields exactly the single entry {Tomato, 5, g} (name from the entry the
index held first) whose normalized unit is "g". -/
theorem merge_add_matching_key_updates_only_quantity
    (idx : Index) (inc ex : Item)
    (hfind : indexFind idx inc.key = some ex) (hq : inc.quantity ≠ 0) :
    indexFind (mergeStep idx inc) inc.key
        = some (setQuantity ex (round6 (ex.quantity + inc.quantity)))
    ∧ (∀ k, k ≠ inc.key → indexFind (mergeStep idx inc) k = indexFind idx k)
    ∧ (merge_items [tomatoCur] [tomatoInc] "add").toOption = some [tomatoMerged]
    ∧ tomatoMerged.name = tomatoCur.name
    ∧ tomatoMerged.quantity = 5
    ∧ tomatoMerged.normalized_unit = some "g" := by
  refine ⟨?_, ?_, by decide, by decide, by decide, by decide⟩
  · rw [mergeStep_found hq hfind]
    exact indexFind_indexInsert_self _ _ _
  · intro k hk
    rw [mergeStep_found hq hfind]
    exact indexFind_indexInsert_ne _ _ _ _ hk

/-- Witness for C1, at the Tomato/tomato instance. -/
theorem merge_add_matching_key_updates_only_quantity_witness :
    indexFind (mergeStep [(tomatoInc.key, tomatoCur)] tomatoInc) tomatoInc.key
      = some (setQuantity tomatoCur (round6 (tomatoCur.quantity + tomatoInc.quantity))) :=
  (merge_add_matching_key_updates_only_quantity [(tomatoInc.key, tomatoCur)] tomatoInc tomatoCur
    (by decide) (by decide)).1

/-- C2: `normalized_unit` maps a `none` unit to `none`; otherwise it
lowercases and strips the unit string and sends it through the fixed
canonical table, falling back to the lowercased/stripped string itself when
the table has no entry; the complete table is as specified; and an item
constructed with an empty-after-strip unit string is identical to one
constructed with no unit (the unit becomes `None` at construction). -/
theorem normalized_unit_spec :
    (∀ it : Item, it.unit = none → it.normalized_unit = none)
    ∧ (∀ (it : Item) (u : String), it.unit = some u →
        it.normalized_unit = some (canonLookup (pyStrip (pyLower u))))
    ∧ (∀ u : String, CANON.find? (fun p => decide (p.1 = u)) = none → canonLookup u = u)
    ∧ (canonLookup "grams" = "g" ∧ canonLookup "gram" = "g" ∧ canonLookup "g" = "g"
      ∧ canonLookup "kilogram" = "kg" ∧ canonLookup "kilograms" = "kg"
      ∧ canonLookup "kg" = "kg"
      ∧ canonLookup "ml" = "ml" ∧ canonLookup "millilitre" = "ml"
      ∧ canonLookup "milliliter" = "ml" ∧ canonLookup "milliliters" = "ml"
      ∧ canonLookup "l" = "l" ∧ canonLookup "litre" = "l" ∧ canonLookup "liter" = "l"
      ∧ canonLookup "liters" = "l"
      ∧ canonLookup "cup" = "cup" ∧ canonLookup "cups" = "cup"
      ∧ canonLookup "pcs" = "piece" ∧ canonLookup "piece" = "piece"
      ∧ canonLookup "pieces" = "piece"
      ∧ canonLookup "unit" = "piece" ∧ canonLookup "units" = "piece")
    ∧ (∀ (nm : String) (q : ℚ) (cat : Option String) (conf : Option ℚ)
        (nts : Option String) (u : String), pyStrip u = "" →
        mkItem nm q (some u) cat conf nts = mkItem nm q none cat conf nts) := by
  refine ⟨?_, ?_, ?_, by decide, ?_⟩
  · intro it h
    simp [Item.normalized_unit, h]
  · intro it u h
    simp [Item.normalized_unit, h]
  · intro u h
    simp [canonLookup, h]
  · intro nm q cat conf nts u h
    simp [mkItem, shapeUnit, h]

/-- Witness for C2: a unit-less item, an unmapped unit, and the
whitespace-only unit construction. -/
theorem normalized_unit_spec_witness :
    (Item.mk "Plain" 1 none none none none).normalized_unit = none
    ∧ canonLookup "oodles" = "oodles"
    ∧ mkItem "Water" 1 (some "   ") none none none = mkItem "Water" 1 none none none none :=
  ⟨normalized_unit_spec.1 (Item.mk "Plain" 1 none none none none) rfl,
   normalized_unit_spec.2.2.1 "oodles" (by decide),
   normalized_unit_spec.2.2.2.2 "Water" 1 none none none "   " (by decide)⟩

/-- C5: `merge_items` returns the unsupported-strategy error exactly when the
strategy differs from "add" (the check precedes all processing, so an error
carries no partial result), and for "add" it returns a result on every
input. -/
theorem merge_strategy_error_iff (current incoming : List Item) (strategy : String) :
    (strategy ≠ "add" →
      merge_items current incoming strategy
        = Except.error ("Unsupported merge strategy: " ++ strategy))
    ∧ (strategy = "add" →
      ∃ res, merge_items current incoming strategy = Except.ok res) := by
  constructor
  · intro h
    rw [merge_items, if_pos (by simpa [MergeStrategy.ADD] using h)]
  · intro h
    rw [h, merge_items_add]
    exact ⟨_, rfl⟩

/-- Witness for C5: strategy "replace" errors, strategy "add" succeeds. -/
theorem merge_strategy_error_iff_witness :
    merge_items [] [] "replace" = Except.error ("Unsupported merge strategy: " ++ "replace")
    ∧ ∃ res, merge_items [] [] "add" = Except.ok res :=
  ⟨(merge_strategy_error_iff [] [] "replace").1 (by decide),
   (merge_strategy_error_iff [] [] "add").2 rfl⟩

/-- C6: an incoming item with quantity exactly 0 leaves the index unchanged
(no new row, no quantity update), and merging empty current with the Ghost
item yields the empty result. -/
theorem merge_zero_quantity_noop (idx : Index) (inc : Item) (h : inc.quantity = 0) :
    mergeStep idx inc = idx
    ∧ (merge_items [] [ghostItem] "add").toOption = some [] :=
  ⟨mergeStep_zero h, by decide⟩

/-- Witness for C6 at the Ghost item. -/
theorem merge_zero_quantity_noop_witness :
    mergeStep [] ghostItem = [] :=
  (merge_zero_quantity_noop [] ghostItem (by decide)).1

/-- C10: when current itself contains duplicate merge keys, `_index` keeps
only the last item for the key (the earlier quantities are dropped, not
summed), so merging a duplicate-key current with an empty incoming list
loses the earlier entries: the index of `xs ++ [b]` maps `b`'s key to a copy
of `b`, and merging `[{a,1},{a,2}]` with `[]` yields just `[{a,2}]`. -/
theorem index_duplicate_key_last_wins (xs : List Item) (a b : Item)
    (hab : a.key = b.key) :
    indexFind (_index (xs ++ [b])) b.key = some (copyItem b)
    ∧ _index [a, b] = [(b.key, copyItem b)]
    ∧ (merge_items [dupA1, dupA2] [] "add").toOption = some [dupA2] := by
  refine ⟨?_, ?_, by decide⟩
  · unfold _index
    rw [List.foldl_append, List.foldl_cons, List.foldl_nil]
    exact indexFind_indexInsert_self _ _ _
  · simp [_index, indexInsert, hab]

/-- Witness for C10 at the duplicate "a" items. -/
theorem index_duplicate_key_last_wins_witness :
    indexFind (_index ([dupA1] ++ [dupA2])) dupA2.key = some (copyItem dupA2) :=
  (index_duplicate_key_last_wins [dupA1] dupA1 dupA2 (by decide)).1

/-- C3: for strategy "add" on validated inputs, the merged result contains
no two items with equal merge key, whatever duplicate keys occur within
current, within incoming, or across the two. -/
theorem merge_result_keys_unique (current incoming res : List Item)
    (hcur : ∀ it ∈ current, it.valid) (hinc : ∀ it ∈ incoming, it.valid)
    (hres : merge_items current incoming "add" = Except.ok res) :
    res.Pairwise (fun a b => a.key ≠ b.key) := by
  rw [merge_items_add] at hres
  injection hres with h
  subst h
  have hOK := idxOK_foldl_mergeStep (idxOK_index hcur) hinc
  have hpair : (incoming.foldl mergeStep (_index current)).Pairwise
      (fun p q => (p.2).key ≠ (q.2).key) := by
    refine List.Pairwise.imp_of_mem ?_ hOK.1
    intro p q hp hq hne
    rw [hOK.2 p hp, hOK.2 q hq]
    exact hne
  have hmap : ((incoming.foldl mergeStep (_index current)).map Prod.snd).Pairwise
      (fun a b => a.key ≠ b.key) := List.pairwise_map.mpr hpair
  exact ((List.perm_insertionSort itemLeR _).pairwise_iff
    (fun hxy he => hxy he.symm)).mpr hmap

/-- Witness for C3: the duplicate-heavy merge of both Tomato copies against
both incoming aliases still has pairwise-distinct keys. -/
theorem merge_result_keys_unique_witness :
    [tomatoMerged].Pairwise (fun a b => a.key ≠ b.key) :=
  merge_result_keys_unique [tomatoCur] [tomatoInc] [tomatoMerged]
    (by decide) (by decide) (by decide)

/-- C4: for strategy "add" the result is sorted ascending by the tuple
(normalized name, normalized unit with `none` as `""`, display name), and
merging empty current with [Bananas, apple, Carrot] returns them in
normalized-name order apple, Bananas, Carrot. -/
theorem merge_result_sorted (current incoming res : List Item)
    (hres : merge_items current incoming "add" = Except.ok res) :
    res.Pairwise itemLeR
    ∧ (merge_items [] [bananasItem, appleItem, carrotItem] "add").toOption
        = some [appleItem, bananasItem, carrotItem] := by
  constructor
  · rw [merge_items_add] at hres
    injection hres with h
    subst h
    exact List.sorted_insertionSort itemLeR _
  · decide

/-- Witness for C4 at the three-fruit example. -/
theorem merge_result_sorted_witness :
    [appleItem, bananasItem, carrotItem].Pairwise itemLeR :=
  (merge_result_sorted [] [bananasItem, appleItem, carrotItem]
    [appleItem, bananasItem, carrotItem] (by decide)).1

/-- C7 as stated is false on the code: a current collection whose items
share a merge key loses the earlier duplicate's quantity when merged with an
empty incoming list, so the result is not set-equal to the original. -/
theorem merge_empty_incoming_kq_counterexample :
    (merge_items [dupA1, dupA2] [] "add").toOption.map kqFinset
      ≠ some (kqFinset [dupA1, dupA2]) := by
  decide

/-- C7 amended: for every current collection of validated items whose merge
keys are pairwise distinct (the pantry invariant), merging with an empty
incoming list under "add" returns a collection equal, as a set of
(merge key, quantity) pairs, to the original. -/
theorem merge_empty_incoming_preserves_kq (current res : List Item)
    (hval : ∀ it ∈ current, it.valid)
    (huniq : current.Pairwise (fun a b => a.key ≠ b.key))
    (hres : merge_items current [] "add" = Except.ok res) :
    kqFinset res = kqFinset current := by
  rw [merge_items_add] at hres
  injection hres with h
  subst h
  rw [List.foldl_nil, _index_eq_map hval huniq]
  refine kqFinset_perm ((List.perm_insertionSort itemLeR _).trans ?_)
  rw [List.map_map]
  have hid : (Prod.snd ∘ fun it : Item => (it.key, it)) = id := rfl
  rw [hid, List.map_id]

/-- Witness for C7 at a two-item pantry whose sorted order differs from the
input order. -/
theorem merge_empty_incoming_preserves_kq_witness :
    kqFinset [ghostItem, tomatoCur] = kqFinset [tomatoCur, ghostItem] :=
  merge_empty_incoming_preserves_kq [tomatoCur, ghostItem] [ghostItem, tomatoCur]
    (by decide) (by decide) (by decide)

/-- C8 as stated is false on the code: with `round(_, 6)` applied after each
sequential addition, the order of two same-key incoming items can change the
final quantity (current 4e-7 with incoming 4e-7 then 1e-6 gives 2e-6, the
other order gives 1e-6). -/
theorem merge_same_key_order_counterexample :
    (merge_items [tinyCur] [tinyA, tinyB] "add").toOption.map
        (fun res => qtysAt res tinyA.key)
      ≠ (merge_items [tinyCur] [tinyB, tinyA] "add").toOption.map
        (fun res => qtysAt res tinyA.key) := by
  decide

/-- C8 amended: when the quantities involved are integer multiples of
`10^-6` (so no rounding occurs at any step), the final quantity at the
shared key is independent of the order of the two same-key incoming
items. -/
theorem merge_same_key_order_micro_independent
    (current : List Item) (A B : Item) (res1 res2 : List Item)
    (hk : B.key = A.key)
    (hvalc : ∀ it ∈ current, it.valid) (hvA : A.valid) (hvB : B.valid)
    (hmc : ∀ it ∈ current, micro it.quantity) (hmA : micro A.quantity)
    (hmB : micro B.quantity)
    (h1 : merge_items current [A, B] "add" = Except.ok res1)
    (h2 : merge_items current [B, A] "add" = Except.ok res2) :
    qtysAt res1 A.key = qtysAt res2 A.key := by
  rw [merge_items_add] at h1 h2
  injection h1 with e1
  injection h2 with e2
  subst e1
  subst e2
  rw [qtysAt_perm (List.perm_insertionSort itemLeR _),
    qtysAt_perm (List.perm_insertionSort itemLeR _),
    List.foldl_cons, List.foldl_cons, List.foldl_nil,
    List.foldl_cons, List.foldl_cons, List.foldl_nil]
  have hOK : idxOK (_index current) := idxOK_index hvalc
  by_cases hzA : A.quantity = 0
  · rw [mergeStep_zero hzA, mergeStep_zero hzA]
  · by_cases hzB : B.quantity = 0
    · rw [mergeStep_zero hzB, mergeStep_zero hzB]
    · cases hfind : indexFind (_index current) A.key with
      | some ex =>
        have hexq : micro ex.quantity := by
          rcases indexFind_index_quantity hfind with ⟨c, hc, he⟩
          rw [he]
          exact hmc c hc
        have sA := mergeStep_found hzA hfind
        have fB : indexFind (mergeStep (_index current) A) B.key
            = some (setQuantity ex (round6 (ex.quantity + A.quantity))) := by
          rw [hk, sA]
          exact indexFind_indexInsert_self _ _ _
        have sB := mergeStep_found hzB fB
        have hfindB : indexFind (_index current) B.key = some ex := by
          rw [hk]
          exact hfind
        have sB0 := mergeStep_found hzB hfindB
        have fA : indexFind (mergeStep (_index current) B) A.key
            = some (setQuantity ex (round6 (ex.quantity + B.quantity))) := by
          rw [sB0, hk]
          exact indexFind_indexInsert_self _ _ _
        have sA2 := mergeStep_found hzA fA
        have hm1 : round6 (ex.quantity + A.quantity) = ex.quantity + A.quantity :=
          round6_micro (micro_add hexq hmA)
        have hm2 : round6 (ex.quantity + B.quantity) = ex.quantity + B.quantity :=
          round6_micro (micro_add hexq hmB)
        rw [sB, sA, sA2, sB0, hk, indexInsert_indexInsert, indexInsert_indexInsert,
          setQuantity_setQuantity, setQuantity_setQuantity, setQuantity_quantity,
          setQuantity_quantity, hm1, hm2,
          round6_micro (micro_add (micro_add hexq hmA) hmB),
          round6_micro (micro_add (micro_add hexq hmB) hmA),
          show ex.quantity + A.quantity + B.quantity
              = ex.quantity + B.quantity + A.quantity by ring]
      | none =>
        have hfindB : indexFind (_index current) B.key = none := by
          rw [hk]
          exact hfind
        have sA := mergeStep_notFound hzA hfind
        have fB : indexFind (mergeStep (_index current) A) B.key
            = some (copyItem A) := by
          rw [hk, sA]
          exact indexFind_indexInsert_self _ _ _
        have sB := mergeStep_found hzB fB
        have sB0 := mergeStep_notFound hzB hfindB
        have fA : indexFind (mergeStep (_index current) B) A.key
            = some (copyItem B) := by
          rw [sB0, hk]
          exact indexFind_indexInsert_self _ _ _
        have sA2 := mergeStep_found hzA fA
        rw [sB, sA, sA2, sB0, hk, indexInsert_indexInsert, indexInsert_indexInsert,
          copyItem_quantity, copyItem_quantity,
          round6_micro (micro_add hmA hmB), round6_micro (micro_add hmB hmA),
          qtysAt_indexInsert_of_none hOK hfind
            (by rw [setQuantity_key, copyItem_eq_self hvA]),
          qtysAt_indexInsert_of_none hOK hfind
            (by rw [setQuantity_key, copyItem_eq_self hvB]; exact hk),
          setQuantity_quantity, setQuantity_quantity, add_comm A.quantity B.quantity]

/-- Witness for C8 (amended) at whole-number quantities 1 and 3 into an
empty current collection. -/
theorem merge_same_key_order_micro_independent_witness :
    qtysAt [Item.mk "x" 4 none none none none] (Item.mk "x" 1 none none none none).key
      = qtysAt [Item.mk "X" 4 none none none none]
          (Item.mk "x" 1 none none none none).key :=
  merge_same_key_order_micro_independent [] (Item.mk "x" 1 none none none none)
    (Item.mk "X" 3 none none none none) [Item.mk "x" 4 none none none none]
    [Item.mk "X" 4 none none none none]
    (by decide) (by simp) (by decide) (by decide) (by simp)
    ⟨1000000, by norm_num⟩ ⟨3000000, by norm_num⟩ (by decide) (by decide)

/-- C9: the merge never mutates caller-supplied objects — on the heap model,
every object that existed before the call reads unchanged afterwards, every
reference in the merged result is fresh (allocated by the call, so it
aliases no caller object), and `apply_merge` returns a newly constructed
`Pantry` around the merged list. -/
theorem merge_no_mutation_and_fresh_result (h : Heap) (current incoming : List Nat)
    (hw : h.WF) :
    (∀ x, x < h.next → (merge_itemsH h current incoming).1.mem x = h.mem x)
    ∧ (∀ r ∈ (merge_itemsH h current incoming).2, h.next ≤ r)
    ∧ (∀ (pantry : Pantry) (inc : List Item) (strategy : String) (res : Pantry),
        apply_merge pantry inc strategy = Except.ok res →
        ∃ merged, merge_items pantry.items inc strategy = Except.ok merged
          ∧ res = Pantry.mk merged) := by
  refine ⟨(merge_itemsH_frame h current incoming hw).1,
    (merge_itemsH_frame h current incoming hw).2, ?_⟩
  intro pantry inc strategy res hres
  cases hm : merge_items pantry.items inc strategy with
  | ok merged =>
    refine ⟨merged, rfl, ?_⟩
    rw [apply_merge, hm] at hres
    injection hres with he
    exact he.symm
  | error e =>
    rw [apply_merge, hm] at hres
    cases hres


/-- Witness for C9: merging on a heap holding one pantry object leaves that
object unchanged. -/
theorem merge_no_mutation_and_fresh_result_witness :
    (merge_itemsH demoHeap [0] []).1.mem 0 = demoHeap.mem 0 :=
  (merge_no_mutation_and_fresh_result demoHeap [0] []
    (by
      intro r hr
      have hr' : 1 ≤ r := hr
      show (if r = 0 then some tomatoCur else none) = none
      rw [if_neg (by omega)])).1 0 (by decide)

end TodaysSpecial
